import Mathlib

/-!
Shallow embedding of the NEMESIS cipher (`src/Nemesis.pyx`).

Bytes are modelled as `Nat` values in `0..255` (the contents of Python
`bytearray`s).  The Cython `% 256` computed under `cdivision(True)` followed
by the store into a byte buffer is modelled by `Int.emod 256`: the C
remainder may be negative, but the subsequent byte store wraps it to the
canonical representative in `0..255`, which is exactly what `Int.emod`
yields.  The C `double` growth rate `2.65` of `necessary_length` is modelled
by the exact rational `53/20`.  Keys are byte lists (the result of the
source's `as_bytes`), and the encrypted file is a byte list together with
the running checksum accumulated by the processing loop.
-/

namespace Nemesis

/-- Table `_ODD` from the source: `_ODD[:] = range(1, 256, 2)`, i.e. the 128
odd integers `1, 3, ..., 255` in order.  As a Lean `def` it is an immutable
process-wide constant, exactly like the C array it models. -/
def _ODD : List Nat := (List.range 128).map (fun x => 2 * x + 1)

/-- Table `_INVERSE` from the source, the literal list of 128 entries
assigned to `_INVERSE[:]`. -/
def _INVERSE : List Nat :=
  [1, 171, 205, 183, 57, 163, 197, 239, 241, 27, 61, 167, 41, 19,
   53, 223, 225, 139, 173, 151, 25, 131, 165, 207, 209, 251, 29,
   135, 9, 243, 21, 191, 193, 107, 141, 119, 249, 99, 133, 175,
   177, 219, 253, 103, 233, 211, 245, 159, 161, 75, 109, 87, 217,
   67, 101, 143, 145, 187, 221, 71, 201, 179, 213, 127, 129, 43,
   77, 55, 185, 35, 69, 111, 113, 155, 189, 39, 169, 147, 181, 95,
   97, 11, 45, 23, 153, 3, 37, 79, 81, 123, 157, 7, 137, 115, 149,
   63, 65, 235, 13, 247, 121, 227, 5, 47, 49, 91, 125, 231, 105,
   83, 117, 31, 33, 203, 237, 215, 89, 195, 229, 15, 17, 59, 93,
   199, 73, 51, 85, 255]

/-- Loop of `necessary_length`: `while (approx_growth_rate < size): k += 1;
approx_growth_rate *= 2.65`.  The `double` 2.65 is modelled by the exact
rational `53/20`.  The loop is written with an explicit fuel argument; the
fuel chosen by `necessary_length` below is always sufficient (the growth
rate reaches any integer `size` within `size` doublings, see
`growth_loop_fuel_stable`), so the fuel never cuts an execution short. -/
def growth_loop (size : Int) : Nat → Nat → ℚ → Nat
  | 0, k, _ => k
  | fuel + 1, k, g =>
    if g < (size : ℚ) then growth_loop size fuel (k + 1) (g * (53 / 20)) else k

/-- Embedding of `necessary_length` from the source: `k = 2`,
`approx_growth_rate = 2.65`, then the while loop above, returning `k`. -/
def necessary_length (size : Int) : Nat :=
  growth_loop size (size.toNat + 1) 2 (53 / 20)

/-- One element of a freshly generated keystream row, translated from the
body of the `while (j < L1 - i)` loop of `generate_keystreams`:
`aux = prev[j] * prev[L-i]; aux += prev[j+1] * prev[min(0, j-1)];` then
`for k in range(LO): aux += other[k] * other[(k+j) % LO] * key[(aux+k) % L]`
and finally `aux % 256`.  Python's `min(0, j-1)` is `-1` when `j = 0`
(negative indexing: the last element of the previous row) and `0`
otherwise. -/
def row_elem (key other prevRow : List Nat) (i j : Nat) : Nat :=
  let L := key.length
  let LO := other.length
  let a := prevRow.getD j 0 * prevRow.getD (L - i) 0
  let b := prevRow.getD (j + 1) 0 *
    prevRow.getD (if j = 0 then prevRow.length - 1 else 0) 0
  ((List.range LO).foldl
    (fun acc k => acc + other.getD k 0 * other.getD ((k + j) % LO) 0 *
      key.getD ((acc + k) % L) 0) (a + b)) % 256

/-- Row `i` (for `i ≥ 1`) of the keystream matrix: the inner while loop
appends `row_elem` values for `j = 0, 1, ..., L - i - 1`. -/
def next_row (key other prevRow : List Nat) (i : Nat) : List Nat :=
  (List.range (key.length - i)).map (row_elem key other prevRow i)

/-- Row `i` of the keystream matrix for `key` (with `other` the other key):
row 0 is the key itself, each later row is generated from its
predecessor. -/
def ks_row (key other : List Nat) : Nat → List Nat
  | 0 => key
  | i + 1 => next_row key other (ks_row key other i) (i + 1)

/-- The keystream matrix for `key`: row 0 plus the `⌈L/2⌉` generated rows
(`for i in range(1, 1 + stop)` with `stop = int(ceil(L / 2))`). -/
def generate_keystream (key other : List Nat) : List (List Nat) :=
  (List.range (1 + (key.length + 1) / 2)).map (ks_row key other)

/-- Embedding of `generate_keystreams`: builds both matrices, each key using
the other as the auxiliary key. -/
def generate_keystreams (key1 key2 : List Nat) :
    List (List Nat) × List (List Nat) :=
  (generate_keystream key1 key2, generate_keystream key2 key1)

/-- Positional byte mixer from the encryption loop of `nemesis_encrypt`:
`byte1 = 0; for i in range(stop1): byte1 += keystream1[i][count % (L1 - i)];
byte1 %= 256` where `L1 = len(keystream1[0])` and
`stop1 = int(ceil(L1 / 2))`. -/
def mixer_byte (m : List (List Nat)) (t : Nat) : Nat :=
  let L := (m.getD 0 []).length
  let stop := (L + 1) / 2
  ((List.range stop).foldl
    (fun s i => s + (m.getD i []).getD (t % (L - i)) 0) 0) % 256

/-- Per-byte encrypt transform of `nemesis_encrypt`:
`RK = ((byte1 + byte2) % 256) // 2` and then
`(((_ODD[RK] * p) + byte1 - byte2) * _ODD[127 - RK]) % 256` stored into a
byte of the data buffer.  The C remainder followed by the byte store is
`Int.emod 256` (see the file comment). -/
def rk_encrypt_byte (p b1 b2 : Nat) : Nat :=
  let RK : Nat := ((b1 + b2) % 256) / 2
  ((((_ODD.getD RK 0 : Int) * (p : Int) + (b1 : Int) - (b2 : Int)) *
    (_ODD.getD (127 - RK) 0 : Int)) % 256).toNat

/-- Modelled from the spec: `nemesis_decrypt` in the source is an
unimplemented stub (`def nemesis_decrypt (filename): pass`), and §4.4 of the
spec defines the required inverse transform:
`temp = (c * INV[127 - RK]) mod 256` and then
`plaintext = ((temp - byte1 + byte2) mod 256) * INV[RK] mod 256`,
normalizing negatives (here automatic via `Int.emod`). -/
def rk_decrypt_byte (c b1 b2 : Nat) : Nat :=
  let RK : Nat := ((b1 + b2) % 256) / 2
  let temp : Int := ((c : Int) * (_INVERSE.getD (127 - RK) 0 : Int)) % 256
  ((((temp - (b1 : Int) + (b2 : Int)) % 256) *
    (_INVERSE.getD RK 0 : Int)) % 256).toNat

/-- Chunk size of the streaming loop: the source reads, transforms and
writes back chunks of `1048576` bytes. -/
def CHUNK : Nat := 1048576

/-- Writing a buffer back into the byte store at a given offset
(`datafile.seek(position); datafile.write(data)`). -/
def write_chunk (file : List Nat) (pos : Nat) (buf : List Nat) : List Nat :=
  file.take pos ++ buf ++ file.drop (pos + buf.length)

/-- The `while (count < size)` loop of `nemesis_encrypt`, parameterized by
the per-position byte transform `enc`.  Each iteration transforms the byte
at `count % CHUNK` of the current buffer in place, adds the written byte to
the checksum and, once `count` reaches a chunk boundary, writes the buffer
back at `count - CHUNK` and reads the next chunk.  Exactly as in the
source, a final partial chunk is transformed in the buffer but never
written back to the store. -/
def process_stream (enc : Nat → Nat → Nat) (size count checksum : Nat)
    (file buffer : List Nat) : List Nat × Nat :=
  if h : count < size then
    let index := count % CHUNK
    let c := enc count (buffer.getD index 0)
    let buffer2 := buffer.set index c
    if (count + 1) % CHUNK = 0 then
      let file2 := write_chunk file (count + 1 - CHUNK) buffer2
      process_stream enc size (count + 1) (checksum + c) file2
        ((file2.drop (count + 1)).take CHUNK)
    else
      process_stream enc size (count + 1) (checksum + c) file buffer2
  else (file, checksum)
termination_by size - count
decreasing_by
  all_goals omega

/-- The per-position ciphertext transform used by the encryption loop:
mixing bytes come from the two keystream matrices at the absolute position
`t`, then the RK+ transform is applied to the data byte. -/
def encrypt_at (key1 key2 : List Nat) (t p : Nat) : Nat :=
  rk_encrypt_byte p (mixer_byte (generate_keystreams key1 key2).1 t)
    (mixer_byte (generate_keystreams key1 key2).2 t)

/-- Embedding of the file-processing part of `nemesis_encrypt`: the store is
the file contents, the first chunk is read, and the loop runs with the RK+
transform built from both keystream matrices.  Returns the final store
contents and the final checksum. -/
def nemesis_encrypt (key1 key2 file : List Nat) : List Nat × Nat :=
  let ks := generate_keystreams key1 key2
  process_stream
    (fun t p => rk_encrypt_byte p (mixer_byte ks.1 t) (mixer_byte ks.2 t))
    file.length 0 0 file (file.take CHUNK)

/-- The MAC printed at the end of `nemesis_encrypt`:
`(checksum % 233, checksum % 239, checksum % 241, checksum % 251)` in that
order. -/
def mac (checksum : Nat) : Nat × Nat × Nat × Nat :=
  (checksum % 233, checksum % 239, checksum % 241, checksum % 251)

end Nemesis

namespace Nemesis

/-! Helper lemmas shared by several claim theorems. -/

set_option maxRecDepth 10000 in
/-- Table fact used throughout: each `_ODD` entry times the matching
`_INVERSE` entry is `1` modulo `256`. -/
lemma odd_mul_inverse : ∀ i : Fin 128,
    (_ODD.getD i 0 * _INVERSE.getD i 0) % 256 = 1 := by
  decide

lemma odd_mul_inverse_int {i : Nat} (h : i < 128) :
    ((_ODD.getD i 0 : Int) * (_INVERSE.getD i 0 : Int)) % 256 = 1 := by
  have := odd_mul_inverse ⟨i, h⟩
  exact_mod_cast this

lemma _ODD_length : _ODD.length = 128 := by
  simp [_ODD]

set_option maxRecDepth 10000 in
lemma _INVERSE_length : _INVERSE.length = 128 := by
  decide

/-- The loop of `necessary_length` only ever increments `k`. -/
lemma growth_loop_k_le (size : Int) :
    ∀ fuel k g, k ≤ growth_loop size fuel k g := by
  intro fuel
  induction fuel with
  | zero => intro k g; exact Nat.le_refl k
  | succ fuel ih =>
    intro k g
    unfold growth_loop
    split
    · exact Nat.le_trans (Nat.le_succ k) (ih (k + 1) (g * (53 / 20)))
    · exact Nat.le_refl k

/-- Fuel is irrelevant once the growth rate is guaranteed to reach `size`
within `fuel` steps: the loop result is stable under extra fuel. -/
lemma growth_loop_fuel_stable (size : Int) :
    ∀ fuel k (g : ℚ), 0 < g → (size : ℚ) ≤ g * (53 / 20) ^ fuel →
      ∀ j, growth_loop size (fuel + j) k g = growth_loop size fuel k g := by
  intro fuel
  induction fuel with
  | zero =>
    intro k g hg hbound j
    have hnot : ¬ g < (size : ℚ) := by
      simp only [pow_zero, mul_one] at hbound
      exact not_lt.mpr hbound
    cases j with
    | zero => rfl
    | succ j => simp [growth_loop, hnot]
  | succ fuel ih =>
    intro k g hg hbound j
    have hstep : (size : ℚ) ≤ g * (53 / 20) * (53 / 20) ^ fuel := by
      calc (size : ℚ) ≤ g * (53 / 20) ^ (fuel + 1) := hbound
        _ = g * (53 / 20) * (53 / 20) ^ fuel := by ring
    have harr : fuel + 1 + j = (fuel + j) + 1 := by omega
    rw [harr]
    unfold growth_loop
    by_cases hlt : g < (size : ℚ)
    · simp only [if_pos hlt]
      exact ih (k + 1) (g * (53 / 20)) (by positivity) hstep j
    · simp only [if_neg hlt]

/-- The fuel `size.toNat + 1` chosen by `necessary_length` is always
sufficient: the growth rate exceeds `size` within that many steps. -/
lemma necessary_length_fuel_sufficient (size : Int) :
    (size : ℚ) ≤ (53 / 20) * (53 / 20) ^ (size.toNat + 1) := by
  by_cases hpos : 0 ≤ size
  · have h1 : (size : ℚ) ≤ (size.toNat : ℚ) := by
      exact_mod_cast Int.self_le_toNat size
    have h2 : (size.toNat : ℚ) < 2 ^ size.toNat := by
      exact_mod_cast Nat.lt_two_pow size.toNat
    have h3 : (2 : ℚ) ^ size.toNat ≤ (53 / 20) ^ size.toNat :=
      pow_le_pow_left (by norm_num) (by norm_num) size.toNat
    have h4 : ((53 : ℚ) / 20) ^ size.toNat ≤ (53 / 20) * (53 / 20) ^ (size.toNat + 1) := by
      have hbase : (1 : ℚ) ≤ (53 / 20) * (53 / 20) := by norm_num
      calc ((53 : ℚ) / 20) ^ size.toNat
          ≤ (53 / 20) * (53 / 20) * (53 / 20) ^ size.toNat := by
            nlinarith [pow_pos (show (0:ℚ) < 53 / 20 by norm_num) size.toNat]
        _ = (53 / 20) * (53 / 20) ^ (size.toNat + 1) := by ring
    calc (size : ℚ) ≤ (size.toNat : ℚ) := h1
      _ ≤ 2 ^ size.toNat := le_of_lt h2
      _ ≤ (53 / 20) ^ size.toNat := h3
      _ ≤ (53 / 20) * (53 / 20) ^ (size.toNat + 1) := h4
  · push_neg at hpos
    have : (size : ℚ) < 0 := by exact_mod_cast hpos
    have hp : (0 : ℚ) < (53 / 20) * (53 / 20) ^ (size.toNat + 1) := by positivity
    linarith

end Nemesis

namespace Nemesis

/-- Core modular-arithmetic fact behind the RK+ round trip: multiplying by
an odd table entry and its inverse cancels modulo 256, so the decrypt
pipeline undoes the encrypt pipeline. -/
lemma rk_core (o1 o2 v1 v2 b1 b2 p : ℤ) (h1 : o1 * v1 % 256 = 1)
    (h2 : o2 * v2 % 256 = 1) (hp0 : 0 ≤ p) (hp : p < 256) :
    (((((o1 * p + b1 - b2) * o2) % 256 * v2) % 256 - b1 + b2) % 256 * v1) % 256
      = p := by
  have m : ∀ a : ℤ, a % 256 ≡ a [ZMOD 256] := fun a =>
    Int.emod_emod_of_dvd a dvd_rfl
  have hv2 : o2 * v2 ≡ 1 [ZMOD 256] := by
    show o2 * v2 % 256 = 1 % 256
    rw [h2]
    norm_num
  have hv1 : o1 * v1 ≡ 1 [ZMOD 256] := by
    show o1 * v1 % 256 = 1 % 256
    rw [h1]
    norm_num
  have t2 : ((o1 * p + b1 - b2) * o2) % 256 * v2 ≡ o1 * p + b1 - b2 [ZMOD 256] := by
    calc ((o1 * p + b1 - b2) * o2) % 256 * v2
        ≡ (o1 * p + b1 - b2) * o2 * v2 [ZMOD 256] := (m _).mul_right v2
      _ = (o1 * p + b1 - b2) * (o2 * v2) := by ring
      _ ≡ (o1 * p + b1 - b2) * 1 [ZMOD 256] := Int.ModEq.mul_left _ hv2
      _ = o1 * p + b1 - b2 := by ring
  have t3 : (((o1 * p + b1 - b2) * o2) % 256 * v2) % 256 - b1 + b2
      ≡ o1 * p [ZMOD 256] := by
    calc (((o1 * p + b1 - b2) * o2) % 256 * v2) % 256 - b1 + b2
        ≡ ((o1 * p + b1 - b2) * o2) % 256 * v2 - b1 + b2 [ZMOD 256] :=
          ((m _).sub_right b1).add_right b2
      _ ≡ (o1 * p + b1 - b2) - b1 + b2 [ZMOD 256] :=
          (t2.sub_right b1).add_right b2
      _ = o1 * p := by ring
  have t4 : ((((o1 * p + b1 - b2) * o2) % 256 * v2) % 256 - b1 + b2) % 256 * v1
      ≡ p [ZMOD 256] := by
    calc ((((o1 * p + b1 - b2) * o2) % 256 * v2) % 256 - b1 + b2) % 256 * v1
        ≡ ((((o1 * p + b1 - b2) * o2) % 256 * v2) % 256 - b1 + b2) * v1
            [ZMOD 256] := (m _).mul_right v1
      _ ≡ (o1 * p) * v1 [ZMOD 256] := t3.mul_right v1
      _ = p * (o1 * v1) := by ring
      _ ≡ p * 1 [ZMOD 256] := Int.ModEq.mul_left _ hv1
      _ = p := by ring
  have t5 := (m _).trans t4
  have t6 : (((((o1 * p + b1 - b2) * o2) % 256 * v2) % 256 - b1 + b2) % 256 * v1)
      % 256 % 256 = p % 256 := t5
  rwa [Int.emod_emod_of_dvd _ dvd_rfl, Int.emod_eq_of_lt hp0 hp] at t6

/-- Claim C1: applying the spec's decrypt transform (`temp = (c *
INV[127 - RK]) mod 256`; `plaintext = ((temp - byte1 + byte2) mod 256) *
INV[RK] mod 256`) to the result of the source's encrypt transform
(`((ODD[RK] * p + byte1 - byte2) mod 256) * ODD[127 - RK] mod 256` with
`RK = ((byte1 + byte2) mod 256) div 2`) returns the plaintext byte, for
every plaintext byte and every pair of mixing bytes in `0..255`. -/
theorem rk_decrypt_encrypt_roundtrip (p b1 b2 : Nat)
    (hp : p < 256) (hb1 : b1 < 256) (hb2 : b2 < 256) :
    rk_decrypt_byte (rk_encrypt_byte p b1 b2) b1 b2 = p := by
  have hmod : (b1 + b2) % 256 < 256 := Nat.mod_lt _ (by norm_num)
  have hRK : (b1 + b2) % 256 / 2 < 128 := by omega
  have hRK2 : 127 - (b1 + b2) % 256 / 2 < 128 := by omega
  have k1 := odd_mul_inverse_int hRK
  have k2 := odd_mul_inverse_int hRK2
  simp only [rk_encrypt_byte, rk_decrypt_byte]
  rw [Int.toNat_of_nonneg (Int.emod_nonneg _ (by norm_num))]
  rw [rk_core _ _ _ _ _ _ _ k1 k2 (by positivity) (by exact_mod_cast hp)]
  simp

/-- Witness for C1 at a concrete input. -/
theorem rk_decrypt_encrypt_roundtrip_witness :
    200 < 256 ∧ 100 < 256 ∧ 50 < 256 ∧
      rk_decrypt_byte (rk_encrypt_byte 200 100 50) 100 50 = 200 :=
  ⟨by norm_num, by norm_num, by norm_num,
    rk_decrypt_encrypt_roundtrip 200 100 50 (by norm_num) (by norm_num)
      (by norm_num)⟩

set_option maxRecDepth 10000 in
/-- Claim C8: for every `x` in `0..127` the `_ODD` table entry is `2x + 1`
and `ODD[x] * INV[x] ≡ 1 (mod 256)`.  Both tables are plain Lean `def`s
(immutable constants), modelling the C arrays that no operation of the
source ever writes to after initialization. -/
theorem odd_table_spec : ∀ x : Fin 128,
    _ODD.getD x 0 = 2 * (x : Nat) + 1 ∧
      (_ODD.getD x 0 * _INVERSE.getD x 0) % 256 = 1 := by
  decide

/-- Claim C9: the key-length advisor returns 3 for size 7 and 6 for size
100.  `necessary_length` is a Lean function, hence deterministic and pure
by construction; the `double` growth rate is modelled by the exact rational
`53/20`, and at these inputs every comparison of the loop is far from
equality, so the rational model agrees with the IEEE double evaluation. -/
theorem necessary_length_values :
    necessary_length 7 = 3 ∧ necessary_length 100 = 6 := by
  constructor
  · norm_num [necessary_length, growth_loop]
  · norm_num [necessary_length, growth_loop]

/-- Claim C10: the advisor is total (it is a Lean function on all of `ℤ`);
for every `size ≤ 2`, including 0 and negative sizes, the loop guard
`2.65 < size` fails at once and the function returns exactly 2, and its
result is at least 2 on every input. -/
theorem necessary_length_total_min :
    (∀ size : Int, size ≤ 2 → necessary_length size = 2) ∧
      (∀ size : Int, 2 ≤ necessary_length size) := by
  constructor
  · intro size hsize
    unfold necessary_length
    have hnot : ¬ ((53 : ℚ) / 20 < (size : ℚ)) := by
      have : (size : ℚ) ≤ 2 := by exact_mod_cast hsize
      linarith
    simp [growth_loop, hnot]
  · intro size
    exact growth_loop_k_le size _ 2 _

/-- Witness for C10 at concrete inputs. -/
theorem necessary_length_total_min_witness :
    necessary_length (-5) = 2 ∧ 2 ≤ necessary_length 1000 :=
  ⟨necessary_length_total_min.1 (-5) (by norm_num),
    necessary_length_total_min.2 1000⟩

/-- Claim C7: for every pair of keys of length at least 1 and every
position, the mixer bytes are reduced modulo 256, so the table index
`RK = ((byte1 + byte2) mod 256) div 2` and its companion `127 - RK` both
lie in `0..127` and every `_ODD`/`_INVERSE` lookup of the transform is in
bounds — the `ArithmeticInvariantViolation` condition is unreachable. -/
theorem odd_index_unreachable (key1 key2 : List Nat)
    (h1 : 1 ≤ key1.length) (h2 : 1 ≤ key2.length) (t : Nat) :
    ((mixer_byte (generate_keystreams key1 key2).1 t +
        mixer_byte (generate_keystreams key1 key2).2 t) % 256) / 2 ≤ 127 ∧
    127 - ((mixer_byte (generate_keystreams key1 key2).1 t +
        mixer_byte (generate_keystreams key1 key2).2 t) % 256) / 2 ≤ 127 ∧
    ((mixer_byte (generate_keystreams key1 key2).1 t +
        mixer_byte (generate_keystreams key1 key2).2 t) % 256) / 2
      < _ODD.length ∧
    127 - ((mixer_byte (generate_keystreams key1 key2).1 t +
        mixer_byte (generate_keystreams key1 key2).2 t) % 256) / 2
      < _ODD.length ∧
    ((mixer_byte (generate_keystreams key1 key2).1 t +
        mixer_byte (generate_keystreams key1 key2).2 t) % 256) / 2
      < _INVERSE.length ∧
    127 - ((mixer_byte (generate_keystreams key1 key2).1 t +
        mixer_byte (generate_keystreams key1 key2).2 t) % 256) / 2
      < _INVERSE.length := by
  have hmod : (mixer_byte (generate_keystreams key1 key2).1 t +
      mixer_byte (generate_keystreams key1 key2).2 t) % 256 < 256 :=
    Nat.mod_lt _ (by norm_num)
  rw [_ODD_length, _INVERSE_length]
  omega

/-- Witness for C7 at a concrete input. -/
theorem odd_index_unreachable_witness :
    1 ≤ ([3] : List Nat).length ∧ 1 ≤ ([5] : List Nat).length ∧
      ((mixer_byte (generate_keystreams [3] [5]).1 0 +
          mixer_byte (generate_keystreams [3] [5]).2 0) % 256) / 2 ≤ 127 :=
  ⟨by norm_num, by norm_num,
    (odd_index_unreachable [3] [5] (by norm_num) (by norm_num) 0).1⟩

end Nemesis

namespace Nemesis

/-- Indexing the built keystream matrix selects the corresponding
`ks_row`. -/
lemma generate_keystream_getD (key other : List Nat) {i : Nat}
    (h : i < 1 + (key.length + 1) / 2) :
    (generate_keystream key other).getD i [] = ks_row key other i := by
  simp [generate_keystream, List.getD_eq_getElem?_getD, List.getElem?_map,
    List.getElem?_range h]

/-- Row `i` of the matrix has length `L - i` (row 0 is the key itself). -/
lemma ks_row_length (key other : List Nat) :
    ∀ i, (ks_row key other i).length = key.length - i
  | 0 => by simp [ks_row]
  | i + 1 => by simp [ks_row, next_row]

/-- Generated row elements are reduced modulo 256. -/
lemma row_elem_lt (key other prevRow : List Nat) (i j : Nat) :
    row_elem key other prevRow i j < 256 := by
  simp only [row_elem]
  exact Nat.mod_lt _ (by norm_num)

/-- Claim C6: for every key of length `L ≥ 1` consisting of bytes, the
keystream matrix has row 0 equal to the key plus exactly `⌈L/2⌉` generated
rows, generated row `i` has length exactly `L - i` (so row lengths strictly
decrease by exactly 1 per row), and every matrix entry is a byte. -/
theorem keystream_shape (key other : List Nat) (hL : 1 ≤ key.length)
    (hbytes : ∀ b ∈ key, b < 256) :
    (generate_keystream key other).length = 1 + (key.length + 1) / 2 ∧
    (generate_keystream key other).getD 0 [] = key ∧
    (∀ i, i ≤ (key.length + 1) / 2 →
      ((generate_keystream key other).getD i []).length = key.length - i) ∧
    (∀ i, i < (key.length + 1) / 2 →
      ((generate_keystream key other).getD (i + 1) []).length + 1 =
        ((generate_keystream key other).getD i []).length) ∧
    (∀ i, i ≤ (key.length + 1) / 2 →
      ∀ b ∈ (generate_keystream key other).getD i [], b < 256) := by
  refine ⟨?_, ?_, ?_, ?_, ?_⟩
  · simp [generate_keystream]
  · rw [generate_keystream_getD key other (by omega)]
    rfl
  · intro i hi
    rw [generate_keystream_getD key other (by omega)]
    exact ks_row_length key other i
  · intro i hi
    rw [generate_keystream_getD key other (by omega),
      generate_keystream_getD key other (by omega)]
    rw [ks_row_length key other, ks_row_length key other]
    have hstop : (key.length + 1) / 2 ≤ key.length := by omega
    omega
  · intro i hi b hb
    rw [generate_keystream_getD key other (by omega)] at hb
    cases i with
    | zero => exact hbytes b hb
    | succ i =>
      simp only [ks_row, next_row, List.mem_map, List.mem_range] at hb
      obtain ⟨j, _, hj⟩ := hb
      rw [← hj]
      exact row_elem_lt key other _ _ _

/-- Witness for C6 at a concrete input. -/
theorem keystream_shape_witness :
    1 ≤ ([7, 8] : List Nat).length ∧ (∀ b ∈ ([7, 8] : List Nat), b < 256) ∧
      1 ≤ (([7, 8] : List Nat).length + 1) / 2 ∧
      (generate_keystream [7, 8] [9]).length =
        1 + (([7, 8] : List Nat).length + 1) / 2 ∧
      ((generate_keystream [7, 8] [9]).getD 1 []).length =
        ([7, 8] : List Nat).length - 1 :=
  ⟨by decide, by decide, by decide,
    (keystream_shape [7, 8] [9] (by decide) (by decide)).1,
    (keystream_shape [7, 8] [9] (by decide) (by decide)).2.2.1 1 (by decide)⟩

/-- Claim C4: every element of a generated row satisfies the chained
recurrence: the accumulator starts from `prevRow[j] * prevRow[L-i] +
prevRow[j+1] * prevRow[p]` with `p` the last index of the previous row when
`j = 0` and `0` otherwise, is then updated sequentially by
`acc + other[k] * other[(k+j) mod LO] * key[(acc+k) mod L]` for
`k = 0..LO-1` (reading row 0 of the matrix being built for the final
factor, always modulo `L`), and the element is the accumulator modulo
256. -/
theorem keystream_row_recurrence (key other : List Nat) (i j : Nat)
    (hi1 : 1 ≤ i) (hi2 : i ≤ (key.length + 1) / 2) (hj : j < key.length - i) :
    ((generate_keystream key other).getD i []).getD j 0 =
      ((List.range other.length).foldl
        (fun acc k => acc + other.getD k 0 *
          other.getD ((k + j) % other.length) 0 *
          ((generate_keystream key other).getD 0 []).getD
            ((acc + k) % key.length) 0)
        (((generate_keystream key other).getD (i - 1) []).getD j 0 *
            ((generate_keystream key other).getD (i - 1) []).getD
              (key.length - i) 0 +
          ((generate_keystream key other).getD (i - 1) []).getD (j + 1) 0 *
            ((generate_keystream key other).getD (i - 1) []).getD
              (if j = 0 then
                ((generate_keystream key other).getD (i - 1) []).length - 1
               else 0) 0)) % 256 := by
  obtain ⟨i', rfl⟩ : ∃ i', i = i' + 1 := ⟨i - 1, by omega⟩
  rw [generate_keystream_getD key other (by omega),
    generate_keystream_getD key other (show i' + 1 - 1 < 1 + (key.length + 1) / 2 by omega),
    generate_keystream_getD key other (show 0 < 1 + (key.length + 1) / 2 by omega)]
  show (ks_row key other (i' + 1)).getD j 0 = _
  simp only [ks_row]
  rw [show (next_row key other (ks_row key other i') (i' + 1)).getD j 0 =
      row_elem key other (ks_row key other i') (i' + 1) j by
    simp [next_row, List.getD_eq_getElem?_getD, List.getElem?_map,
      List.getElem?_range hj]]
  simp only [row_elem]
  rfl

/-- Witness for C4 at a concrete input. -/
theorem keystream_row_recurrence_witness :
    1 ≤ 1 ∧ 1 ≤ (([1, 2, 3] : List Nat).length + 1) / 2 ∧
      0 < ([1, 2, 3] : List Nat).length - 1 ∧
      ((generate_keystream [1, 2, 3] [4, 5]).getD 1 []).getD 0 0 =
        ((List.range ([4, 5] : List Nat).length).foldl
          (fun acc k => acc + ([4, 5] : List Nat).getD k 0 *
            ([4, 5] : List Nat).getD ((k + 0) % ([4, 5] : List Nat).length) 0 *
            ((generate_keystream [1, 2, 3] [4, 5]).getD 0 []).getD
              ((acc + k) % ([1, 2, 3] : List Nat).length) 0)
          (((generate_keystream [1, 2, 3] [4, 5]).getD (1 - 1) []).getD 0 0 *
              ((generate_keystream [1, 2, 3] [4, 5]).getD (1 - 1) []).getD
                (([1, 2, 3] : List Nat).length - 1) 0 +
            ((generate_keystream [1, 2, 3] [4, 5]).getD (1 - 1) []).getD (0 + 1) 0 *
              ((generate_keystream [1, 2, 3] [4, 5]).getD (1 - 1) []).getD
                (if (0 : Nat) = 0 then
                  ((generate_keystream [1, 2, 3] [4, 5]).getD (1 - 1) []).length - 1
                 else 0) 0)) % 256 :=
  ⟨by decide, by decide, by decide,
    keystream_row_recurrence [1, 2, 3] [4, 5] 1 0 (by decide) (by decide)
      (by decide)⟩

end Nemesis

namespace Nemesis

/-- Folding additions over `List.range` is a `Finset.range` sum. -/
lemma foldl_add_range (f : Nat → Nat) :
    ∀ n a, (List.range n).foldl (fun s i => s + f i) a =
      a + ∑ i in Finset.range n, f i := by
  intro n
  induction n with
  | zero => intro a; simp
  | succ n ih =>
    intro a
    rw [List.range_succ, List.foldl_append, ih a, Finset.sum_range_succ]
    simp [Nat.add_assoc]

/-- The mixer byte as a closed sum over the consulted rows. -/
lemma mixer_byte_sum (m : List (List Nat)) (t : Nat) :
    mixer_byte m t =
      (∑ i in Finset.range (((m.getD 0 []).length + 1) / 2),
        (m.getD i []).getD (t % ((m.getD 0 []).length - i)) 0) % 256 := by
  simp only [mixer_byte]
  rw [foldl_add_range]
  simp

/-- Setting a row other than row `i` leaves `getD i` unchanged. -/
lemma getD_set_ne_row (m : List (List Nat)) (s i : Nat) (r : List Nat)
    (h : s ≠ i) : (m.set s r).getD i [] = m.getD i [] := by
  simp [List.getD_eq_getElem?_getD, List.getElem?_set_ne h]

/-- The mixer never consults the last generated row: replacing row `stop`
by anything leaves the mixer byte unchanged. -/
lemma mixer_byte_set_last (m : List (List Nat)) (t : Nat) (r : List Nat)
    (h : 1 ≤ (m.getD 0 []).length) :
    mixer_byte (m.set (((m.getD 0 []).length + 1) / 2) r) t =
      mixer_byte m t := by
  have hstop : 1 ≤ ((m.getD 0 []).length + 1) / 2 := by omega
  have hL : (m.set (((m.getD 0 []).length + 1) / 2) r).getD 0 [] =
      m.getD 0 [] :=
    getD_set_ne_row m _ 0 r (by omega)
  rw [mixer_byte_sum, mixer_byte_sum, hL]
  congr 1
  apply Finset.sum_congr rfl
  intro i hi
  rw [Finset.mem_range] at hi
  rw [getD_set_ne_row m _ i r (by omega)]

/-- Claim C5: for every position `t`, each mixing byte is the sum over rows
`i = 0..stop-1` of entry `t mod (L - i)` of row `i`, reduced modulo 256
(`stop = ⌈L/2⌉`, `L` the key length, identically for both matrices), and
the last generated row (index `stop`) of either matrix is never consulted:
replacing it changes nothing. -/
theorem mixer_byte_spec (m1 m2 : List (List Nat)) (t : Nat)
    (r1 r2 : List Nat) (h1 : 1 ≤ (m1.getD 0 []).length)
    (h2 : 1 ≤ (m2.getD 0 []).length) :
    mixer_byte m1 t =
      (∑ i in Finset.range (((m1.getD 0 []).length + 1) / 2),
        (m1.getD i []).getD (t % ((m1.getD 0 []).length - i)) 0) % 256 ∧
    mixer_byte m2 t =
      (∑ i in Finset.range (((m2.getD 0 []).length + 1) / 2),
        (m2.getD i []).getD (t % ((m2.getD 0 []).length - i)) 0) % 256 ∧
    mixer_byte (m1.set (((m1.getD 0 []).length + 1) / 2) r1) t =
      mixer_byte m1 t ∧
    mixer_byte (m2.set (((m2.getD 0 []).length + 1) / 2) r2) t =
      mixer_byte m2 t :=
  ⟨mixer_byte_sum m1 t, mixer_byte_sum m2 t,
    mixer_byte_set_last m1 t r1 h1, mixer_byte_set_last m2 t r2 h2⟩

/-- Witness for C5 at a concrete input. -/
theorem mixer_byte_spec_witness :
    1 ≤ ((([[3], []] : List (List Nat)).getD 0 []).length) ∧
    1 ≤ ((([[5], []] : List (List Nat)).getD 0 []).length) ∧
      mixer_byte ([[3], []] : List (List Nat)) 0 =
        (∑ i in Finset.range
          (((([[3], []] : List (List Nat)).getD 0 []).length + 1) / 2),
          (([[3], []] : List (List Nat)).getD i []).getD
            (0 % ((([[3], []] : List (List Nat)).getD 0 []).length - i)) 0)
          % 256 :=
  ⟨by decide, by decide,
    (mixer_byte_spec [[3], []] [[5], []] 0 [9] [] (by decide) (by decide)).1⟩

end Nemesis

namespace Nemesis

lemma getD_eq (l : List Nat) (n : Nat) : l.getD n 0 = (l[n]?).getD 0 := by
  simp [List.getD_eq_getElem?_getD]

lemma getD_take (l : List Nat) (b i : Nat) (hi : i < b) :
    (l.take b).getD i 0 = l.getD i 0 := by
  rw [getD_eq, getD_eq, List.getElem?_take_of_lt hi]

lemma getD_drop_take (l : List Nat) (a b i : Nat) (hi : i < b) :
    ((l.drop a).take b).getD i 0 = l.getD (a + i) 0 := by
  rw [getD_eq, getD_eq, List.getElem?_take_of_lt hi, List.getElem?_drop]

lemma write_chunk_length (file buf : List Nat) (pos : Nat)
    (h2 : pos + buf.length ≤ file.length) :
    (write_chunk file pos buf).length = file.length := by
  simp [write_chunk]
  omega

lemma write_chunk_getD_left (file buf : List Nat) (pos t : Nat)
    (ht : t < pos) (hpos : pos ≤ file.length) :
    (write_chunk file pos buf).getD t 0 = file.getD t 0 := by
  rw [getD_eq, getD_eq, write_chunk]
  rw [List.getElem?_append_left, List.getElem?_append_left,
    List.getElem?_take_of_lt ht]
  · rw [List.length_take]; omega
  · rw [List.length_append, List.length_take]; omega

lemma write_chunk_getD_mid (file buf : List Nat) (pos i : Nat)
    (hi : i < buf.length) (hpos : pos ≤ file.length) :
    (write_chunk file pos buf).getD (pos + i) 0 = buf.getD i 0 := by
  rw [getD_eq, getD_eq, write_chunk]
  rw [List.getElem?_append_left, List.getElem?_append_right]
  · rw [List.length_take]
    congr 2
    omega
  · rw [List.length_take]; omega
  · rw [List.length_append, List.length_take]; omega

lemma write_chunk_getD_right (file buf : List Nat) (pos t : Nat)
    (ht : pos + buf.length ≤ t) (hpos : pos ≤ file.length) :
    (write_chunk file pos buf).getD t 0 = file.getD t 0 := by
  rw [getD_eq, getD_eq, write_chunk]
  rw [List.getElem?_append_right, List.getElem?_drop]
  · congr 2
    rw [List.length_append, List.length_take]
    omega
  · rw [List.length_append, List.length_take]; omega

/-- Main loop invariant of the streaming processor.  At loop counter
`count`, the store holds transformed bytes strictly below the current
chunk base `count - count % CHUNK` and original bytes elsewhere; the
buffer holds the current chunk with positions below `count` already
transformed; the checksum is the sum of all ciphertext bytes produced so
far.  The conclusion characterizes the final checksum and the final store:
only positions below `size - size % CHUNK` (the last chunk boundary) are
transformed in the store. -/
lemma process_stream_invariant (enc : Nat → Nat → Nat) (f0 : List Nat) :
    ∀ n count checksum file buffer,
      f0.length - count = n →
      count ≤ f0.length →
      file.length = f0.length →
      (∀ t, t < f0.length → file.getD t 0 =
        if t < count - count % 1048576 then enc t (f0.getD t 0)
        else f0.getD t 0) →
      buffer.length = min 1048576 (f0.length - (count - count % 1048576)) →
      (∀ i, i < buffer.length → buffer.getD i 0 =
        if count - count % 1048576 + i < count then
          enc (count - count % 1048576 + i)
            (f0.getD (count - count % 1048576 + i) 0)
        else f0.getD (count - count % 1048576 + i) 0) →
      checksum = ∑ t in Finset.range count, enc t (f0.getD t 0) →
      (process_stream enc f0.length count checksum file buffer).2 =
          ∑ t in Finset.range f0.length, enc t (f0.getD t 0) ∧
        (process_stream enc f0.length count checksum file buffer).1.length =
          f0.length ∧
        ∀ t, t < f0.length →
          (process_stream enc f0.length count checksum file buffer).1.getD t 0 =
            if t < f0.length - f0.length % 1048576 then enc t (f0.getD t 0)
            else f0.getD t 0 := by
  intro n
  induction n with
  | zero =>
    intro count checksum file buffer hn hcount hflen hfile hblen hbuf hcs
    have heq : count = f0.length := by omega
    rw [process_stream]
    rw [dif_neg (show ¬ count < f0.length by omega)]
    refine ⟨by rw [hcs, heq], hflen, ?_⟩
    intro t ht
    rw [hfile t ht, heq]
  | succ n ih =>
    intro count checksum file buffer hn hcount hflen hfile hblen hbuf hcs
    have h : count < f0.length := by omega
    have hidx : count % 1048576 < 1048576 := by omega
    have hidxlt : count % 1048576 < buffer.length := by
      rw [hblen]; omega
    have hread : buffer.getD (count % 1048576) 0 = f0.getD count 0 := by
      rw [hbuf _ hidxlt]
      rw [if_neg (by omega)]
      congr 1
      omega
    rw [process_stream, dif_pos h]
    simp only [CHUNK]
    rw [hread]
    by_cases hb : (count + 1) % 1048576 = 0
    · rw [if_pos hb]
      have hbuflen : buffer.length = 1048576 := by rw [hblen]; omega
      have hpos : count + 1 - 1048576 = count - count % 1048576 := by omega
      have hb2len : (buffer.set (count % 1048576)
          (enc count (f0.getD count 0))).length = 1048576 := by
        rw [List.length_set, hbuflen]
      have hsz : count - count % 1048576 + 1048576 ≤ f0.length := by omega
      rw [hpos]
      have hfl2 : (write_chunk file (count - count % 1048576)
          (buffer.set (count % 1048576) (enc count (f0.getD count 0)))).length
          = f0.length := by
        rw [write_chunk_length, hflen]
        rw [hb2len, hflen]
        omega
      have hfile2 : ∀ t, t < f0.length →
          (write_chunk file (count - count % 1048576)
            (buffer.set (count % 1048576)
              (enc count (f0.getD count 0)))).getD t 0 =
            if t < count + 1 then enc t (f0.getD t 0) else f0.getD t 0 := by
        intro t ht
        by_cases ht1 : t < count - count % 1048576
        · rw [write_chunk_getD_left _ _ _ _ ht1 (by omega)]
          rw [hfile t ht, if_pos ht1, if_pos (by omega)]
        · by_cases ht2 : t < count + 1
          · obtain ⟨i, rfl⟩ : ∃ i, t = count - count % 1048576 + i :=
              ⟨t - (count - count % 1048576), by omega⟩
            rw [write_chunk_getD_mid _ _ _ _ (by rw [hb2len]; omega) (by omega)]
            by_cases hieq : i = count % 1048576
            · subst hieq
              rw [getD_eq, List.getElem?_set_self (by omega), Option.getD_some]
              rw [if_pos (by omega)]
              have harg : count - count % 1048576 + count % 1048576 = count := by
                omega
              rw [harg]
            · rw [getD_eq, List.getElem?_set_ne (by omega), ← getD_eq]
              rw [hbuf i (by omega)]
              rw [if_pos (by omega), if_pos (by omega)]
          · rw [write_chunk_getD_right _ _ _ _ (by rw [hb2len]; omega) (by omega)]
            rw [hfile t ht, if_neg (by omega), if_neg (by omega)]
      apply ih (count + 1) _ _ _
      · omega
      · omega
      · exact hfl2
      · intro t ht
        rw [hfile2 t ht]
        have : count + 1 - (count + 1) % 1048576 = count + 1 := by omega
        rw [this]
      · rw [List.length_take, List.length_drop, hfl2]
        have : count + 1 - (count + 1) % 1048576 = count + 1 := by omega
        rw [this]
      · intro i hi
        rw [List.length_take, List.length_drop, hfl2] at hi
        rw [getD_drop_take _ _ _ _ (by omega)]
        rw [hfile2 (count + 1 + i) (by omega)]
        have hbE : count + 1 - (count + 1) % 1048576 = count + 1 := by omega
        rw [hbE]
      · rw [hcs, Finset.sum_range_succ]
    · rw [if_neg hb]
      apply ih (count + 1) _ file
        (buffer.set (count % 1048576) (enc count (f0.getD count 0)))
      · omega
      · omega
      · exact hflen
      · intro t ht
        rw [hfile t ht]
        have : count + 1 - (count + 1) % 1048576 = count - count % 1048576 := by
          omega
        rw [this]
      · rw [List.length_set, hblen]
        have : count + 1 - (count + 1) % 1048576 = count - count % 1048576 := by
          omega
        rw [this]
      · intro i hi
        rw [List.length_set] at hi
        have hbase : count + 1 - (count + 1) % 1048576 =
            count - count % 1048576 := by omega
        rw [hbase]
        by_cases hieq : i = count % 1048576
        · subst hieq
          rw [getD_eq, List.getElem?_set_self (by omega), Option.getD_some]
          rw [if_pos (by omega)]
          have harg : count - count % 1048576 + count % 1048576 = count := by
            omega
          rw [harg]
        · rw [getD_eq, List.getElem?_set_ne (by omega), ← getD_eq]
          rw [hbuf i hi]
          exact if_congr (by omega) rfl rfl
      · rw [hcs, Finset.sum_range_succ]

/-- Running the streaming processor from its initial state: the final
checksum is the sum of all produced ciphertext bytes, and the final store
holds transformed bytes exactly below the last chunk boundary
`size - size % CHUNK` (original bytes above it: the final partial chunk is
never written back). -/
lemma process_stream_run (enc : Nat → Nat → Nat) (f0 : List Nat) :
    (process_stream enc f0.length 0 0 f0 (f0.take CHUNK)).2 =
        ∑ t in Finset.range f0.length, enc t (f0.getD t 0) ∧
      (process_stream enc f0.length 0 0 f0 (f0.take CHUNK)).1.length =
        f0.length ∧
      ∀ t, t < f0.length →
        (process_stream enc f0.length 0 0 f0 (f0.take CHUNK)).1.getD t 0 =
          if t < f0.length - f0.length % 1048576 then enc t (f0.getD t 0)
          else f0.getD t 0 := by
  apply process_stream_invariant enc f0 f0.length 0 0 f0 (f0.take CHUNK)
  · omega
  · omega
  · rfl
  · intro t ht
    rw [if_neg (by omega)]
  · simp only [CHUNK, List.length_take]
    omega
  · intro i hi
    simp only [CHUNK] at hi ⊢
    rw [List.length_take] at hi
    rw [getD_take _ _ _ (by omega)]
    rw [if_neg (by omega)]
    congr 1
    omega
  · simp

/-- Every ciphertext byte produced by the RK+ transform is a byte. -/
lemma rk_encrypt_byte_lt (p b1 b2 : Nat) : rk_encrypt_byte p b1 b2 < 256 := by
  simp only [rk_encrypt_byte]
  have h1 : 0 ≤ (((_ODD.getD (((b1 + b2) % 256) / 2) 0 : Int) * (p : Int) +
      (b1 : Int) - (b2 : Int)) *
      (_ODD.getD (127 - ((b1 + b2) % 256) / 2) 0 : Int)) % 256 :=
    Int.emod_nonneg _ (by norm_num)
  have h2 : (((_ODD.getD (((b1 + b2) % 256) / 2) 0 : Int) * (p : Int) +
      (b1 : Int) - (b2 : Int)) *
      (_ODD.getD (127 - ((b1 + b2) % 256) / 2) 0 : Int)) % 256 < 256 :=
    Int.emod_lt_of_pos _ (by norm_num)
  omega

end Nemesis

namespace Nemesis

/-- The encryption entry point is the streaming loop driven by the RK+
transform at each absolute position. -/
lemma nemesis_encrypt_eq (key1 key2 file : List Nat) :
    nemesis_encrypt key1 key2 file =
      process_stream (encrypt_at key1 key2) file.length 0 0 file
        (file.take CHUNK) := rfl

/-- Claim C3: after every byte is processed, the reported MAC is the
4-tuple `(checksum mod 233, checksum mod 239, checksum mod 241,
checksum mod 251)` in that fixed order, where the running checksum is the
sum, in byte-processing order, of every ciphertext byte produced; every
addend is a byte value at most 255 (it is the byte just written), so the
partial checksums never decrease. -/
theorem checksum_mac_spec (key1 key2 file : List Nat) :
    (nemesis_encrypt key1 key2 file).2 =
        ∑ t in Finset.range file.length,
          encrypt_at key1 key2 t (file.getD t 0) ∧
      (∀ t p, encrypt_at key1 key2 t p < 256) ∧
      (∀ n m, n ≤ m → m ≤ file.length →
        ∑ t in Finset.range n, encrypt_at key1 key2 t (file.getD t 0) ≤
          ∑ t in Finset.range m, encrypt_at key1 key2 t (file.getD t 0)) ∧
      mac (nemesis_encrypt key1 key2 file).2 =
        ((∑ t in Finset.range file.length,
            encrypt_at key1 key2 t (file.getD t 0)) % 233,
         (∑ t in Finset.range file.length,
            encrypt_at key1 key2 t (file.getD t 0)) % 239,
         (∑ t in Finset.range file.length,
            encrypt_at key1 key2 t (file.getD t 0)) % 241,
         (∑ t in Finset.range file.length,
            encrypt_at key1 key2 t (file.getD t 0)) % 251) := by
  have hrun := process_stream_run (encrypt_at key1 key2) file
  refine ⟨?_, ?_, ?_, ?_⟩
  · rw [nemesis_encrypt_eq]
    exact hrun.1
  · intro t p
    exact rk_encrypt_byte_lt _ _ _
  · intro n m hnm hm
    exact Finset.sum_le_sum_of_subset (Finset.range_subset.mpr hnm)
  · rw [nemesis_encrypt_eq, hrun.1]
    rfl

/-- Claim C2 fails on the code: for the 1-byte store `[0]` with keys `[3]`
and `[5]`, the transform of the single byte is `18` and it is accumulated
into the checksum, but the final partial chunk is never written back, so
the store still holds the original byte `0` after processing (the source
even carries the reminder comment `ENSURE THAT THE LAST READ CHUNK IS
PROCESSED AND WRITTEN!!!` at the spot where the write-back is missing). -/
theorem partial_chunk_not_written :
    (nemesis_encrypt [3] [5] [0]).1 = [0] ∧
      encrypt_at [3] [5] 0 0 = 18 ∧
      (nemesis_encrypt [3] [5] [0]).2 = 18 := by
  have hrun := process_stream_run (encrypt_at [3] [5]) [0]
  have hval : encrypt_at [3] [5] 0 0 = 18 := by decide
  refine ⟨?_, hval, ?_⟩
  · have hlen : (nemesis_encrypt [3] [5] [0]).1.length = 1 := by
      rw [nemesis_encrypt_eq]
      exact hrun.2.1
    have h0 : (nemesis_encrypt [3] [5] [0]).1.getD 0 0 = 0 := by
      rw [nemesis_encrypt_eq]
      rw [hrun.2.2 0 (by norm_num)]
      norm_num
    obtain ⟨a, ha⟩ := List.length_eq_one.mp hlen
    rw [ha] at h0 ⊢
    simp only [List.getD_cons_zero] at h0
    rw [h0]
  · rw [nemesis_encrypt_eq, hrun.1]
    simpa using hval

end Nemesis

namespace Nemesis

/-- Witness for C3 at a concrete input, including the inner monotonicity
hypotheses discharged at concrete indices. -/
theorem checksum_mac_spec_witness :
    1 ≤ 2 ∧ 2 ≤ ([1, 2, 3] : List Nat).length ∧
      (nemesis_encrypt [3] [7] [1, 2, 3]).2 =
        ∑ t in Finset.range ([1, 2, 3] : List Nat).length,
          encrypt_at [3] [7] t (([1, 2, 3] : List Nat).getD t 0) ∧
      (∑ t in Finset.range 1,
          encrypt_at [3] [7] t (([1, 2, 3] : List Nat).getD t 0)) ≤
        ∑ t in Finset.range 2,
          encrypt_at [3] [7] t (([1, 2, 3] : List Nat).getD t 0) :=
  ⟨by norm_num, by norm_num, (checksum_mac_spec [3] [7] [1, 2, 3]).1,
    (checksum_mac_spec [3] [7] [1, 2, 3]).2.2.1 1 2 (by norm_num)
      (by norm_num)⟩

end Nemesis
